import Mathlib

/-!
Verification of the SM2 collaborative sign/decrypt client core.

The repository ships the C ABI header (`sm2_co_sign_ffi.h`) and the FFI test
driver (`test_ffi.c`); the bodies of the `cosign_*` functions live behind the
header.  The algorithms below are therefore modelled from the specification
(spec.md §4.6, §4.7, §6): scalars are `ZMod n` for the group order `n`, the
curve group is an arbitrary additive commutative group in which the base
point `G` satisfies `n • G = 0` (spec §2, §4.2: the SM2 group has order `n`),
and the hash, KDF and point codec are parameters constrained exactly as the
specification constrains them.  All machine-level octet strings are
`List ℕ` with entries below 256; statuses are the `int` codes of the header.
-/

set_option maxRecDepth 8192

namespace SM2

/-- Status codes, transcribed from `sm2_co_sign_ffi.h` lines 17-23. -/
def COSIGN_OK : Int := 0

/-- Status code for a null pointer argument (header line 19). -/
def COSIGN_ERR_NULL_PTR : Int := -1

/-- Status code for an invalid parameter (header line 20). -/
def COSIGN_ERR_INVALID_PARAM : Int := -2

/-- Status code for a cryptographic failure (header line 21). -/
def COSIGN_ERR_CRYPTO : Int := -3

/-- Status code reserved for transport errors (header line 22). -/
def COSIGN_ERR_NETWORK : Int := -4

/-- Status code for an encoding failure (header line 23). -/
def COSIGN_ERR_ENCODING : Int := -5

/-- Error kinds surfaced by the core (spec §7). -/
inductive Err where
  | invalidInput
  | cryptoFailure
  | entropyFailure
  | encodingFailure
deriving DecidableEq, Repr

/-- Result of a fallible core operation: a value or an error kind. -/
inductive CoResult (α : Type) where
  | ok : α → CoResult α
  | err : Err → CoResult α
deriving DecidableEq, Repr

/-- Extract the payload of a successful result, with a default. -/
def CoResult.getOr {α : Type} (r : CoResult α) (d : α) : α :=
  match r with
  | .ok a => a
  | .err _ => d

/-- Big-endian encoding of a natural number to `w` octets, most significant
first (spec §6: fixed width, left-padded with zeros). -/
def toBytesBE : ℕ → ℕ → List ℕ
  | 0, _ => []
  | w + 1, x => (x / 256 ^ w % 256) :: toBytesBE w x

/-- Big-endian decoding of an octet string to a natural number. -/
def fromBytesBE (l : List ℕ) : ℕ :=
  l.foldl (fun acc b => 256 * acc + b) 0

/-- Scalar multiplication of a group element by a scalar mod `n`
(spec §4.2: a ladder over the 256-bit scalar; extensionally the `val`-fold
of the group's repeated addition). -/
def smulZ {n : ℕ} {Pt : Type} [AddCommGroup Pt] (k : ZMod n) (P : Pt) : Pt :=
  k.val • P

/-- Modelled from the spec (§4.1): modular inverse in `Z_n`, by the Fermat
route the spec names (`a⁻¹ = a^(n−2)` for prime `n`); `zinv 0 = 0`, and the
call sites treat a vanishing product as the §4.1 crypto-error signal. -/
def zinv {n : ℕ} (a : ZMod n) : ZMod n :=
  a ^ (n - 2)

section Core

variable {n : ℕ} {Pt : Type} [AddCommGroup Pt] [DecidableEq Pt]

/-- Modelled from the spec (§4.6 sign, steps 2-4): one signing attempt with
nonce draw `k`.  `H P M` is the scalar `e = SM3(Z_A(P) ‖ M) mod n` (§4.5),
`xOf Q` the `x`-coordinate of `Q` reduced mod `n`.  Returns `none` on the
degenerate draws (`r = 0`, `r + k = n`, `s = 0`), which the caller retries. -/
def signAttempt (G : Pt) (xOf : Pt → ZMod n) (H : Pt → List ℕ → ZMod n)
    (d : ZMod n) (M : List ℕ) (k : ZMod n) : Option (ZMod n × ZMod n) :=
  let P := smulZ d G
  let e := H P M
  let x1 := xOf (smulZ k G)
  let r := e + x1
  if r = 0 ∨ r + k = 0 then none
  else
    let s := zinv (1 + d) * (k - r * d)
    if s = 0 then none else some (r, s)

/-- Modelled from the spec (§7, §9: the sign retry loop is an explicit
bounded loop over the nonce draws). -/
def signLoop (G : Pt) (xOf : Pt → ZMod n) (H : Pt → List ℕ → ZMod n)
    (d : ZMod n) (M : List ℕ) : List (ZMod n) → CoResult (ZMod n × ZMod n)
  | [] => .err .cryptoFailure
  | k :: ks =>
    match signAttempt G xOf H d M k with
    | some rs => .ok rs
    | none => signLoop G xOf H d M ks

/-- Modelled from the spec (§4.6 sign with the §7 retry bound of 8):
`cosign_sm2_sign` at scalar level.  `ks` is the stream of RNG draws
(spec §4.8); at most 8 are consumed. -/
def sign (G : Pt) (xOf : Pt → ZMod n) (H : Pt → List ℕ → ZMod n)
    (d : ZMod n) (M : List ℕ) (ks : List (ZMod n)) : CoResult (ZMod n × ZMod n) :=
  signLoop G xOf H d M (ks.take 8)

/-- Modelled from the spec (§6): the 64-octet `r ‖ s` signature wire form
written by `cosign_sm2_sign`. -/
def sigBytesOf (rs : ZMod n × ZMod n) : List ℕ :=
  toBytesBE 32 rs.1.val ++ toBytesBE 32 rs.2.val

/-- Modelled from the spec: `cosign_sm2_sign` (header lines 198-203), wire
level.  The private key and message are taken in parsed form; the output is
the 64-octet `r ‖ s` blob. -/
def sm2SignBytes (G : Pt) (xOf : Pt → ZMod n) (H : Pt → List ℕ → ZMod n)
    (d : ZMod n) (M : List ℕ) (ks : List (ZMod n)) : CoResult (List ℕ) :=
  match sign G xOf H d M ks with
  | .ok rs => .ok (sigBytesOf rs)
  | .err e => .err e

/-- Modelled from the spec: `cosign_sm2_verify` (header lines 215-220; spec
§4.6 verify, §6 status conventions).  `deser` parses a 64-octet wire point,
validating it on curve (§4.2); parse failures and out-of-range `r, s` are
*InvalidInput* (−2), cryptographic rejection is −3, acceptance is 0. -/
def sm2Verify (G : Pt) (xOf : Pt → ZMod n) (H : Pt → List ℕ → ZMod n)
    (deser : List ℕ → Option Pt) (pk : List ℕ) (M : List ℕ) (sig : List ℕ) : Int :=
  if sig.length ≠ 64 then COSIGN_ERR_INVALID_PARAM else
  let rN := fromBytesBE (sig.take 32)
  let sN := fromBytesBE (sig.drop 32)
  if rN = 0 ∨ n ≤ rN ∨ sN = 0 ∨ n ≤ sN then COSIGN_ERR_INVALID_PARAM else
  match deser pk with
  | none => COSIGN_ERR_INVALID_PARAM
  | some P =>
    let r : ZMod n := (rN : ZMod n)
    let s : ZMod n := (sN : ZMod n)
    let t := r + s
    if t = 0 then COSIGN_ERR_CRYPTO
    else if H P M + xOf (smulZ s G + smulZ t P) = r then COSIGN_OK
    else COSIGN_ERR_CRYPTO

/-- Modelled from the spec (§4.6 encrypt, steps 2-7): one encryption attempt
with ephemeral draw `k`.  `ser S` is the 64-octet `x ‖ y` encoding of the
point `S` (§6), `kdf z l` the `l`-octet KDF output on seed `z` (§4.4),
`sm3` the 32-octet hash.  Returns `none` on the degenerate draws
(`k·P = O` or all-zero KDF output), which the caller retries. -/
def encAttempt (G : Pt) (ser : Pt → List ℕ) (kdf : List ℕ → ℕ → List ℕ)
    (sm3 : List ℕ → List ℕ) (P : Pt) (M : List ℕ) (k : ZMod n) : Option (List ℕ) :=
  let c1pt := smulZ k G
  let S := smulZ k P
  if S = 0 then none
  else
    let zb := ser S
    let t := kdf zb M.length
    if t.all (· = 0) then none
    else
      let c2 := M.zipWith Nat.xor t
      let c3 := sm3 (zb.take 32 ++ M ++ zb.drop 32)
      some (ser c1pt ++ c3 ++ c2)

/-- Modelled from the spec (§7, §9: the encrypt retry loop is an explicit
bounded loop over the ephemeral draws). -/
def encLoop (G : Pt) (ser : Pt → List ℕ) (kdf : List ℕ → ℕ → List ℕ)
    (sm3 : List ℕ → List ℕ) (P : Pt) (M : List ℕ) : List (ZMod n) → CoResult (List ℕ)
  | [] => .err .cryptoFailure
  | k :: ks =>
    match encAttempt G ser kdf sm3 P M k with
    | some c => .ok c
    | none => encLoop G ser kdf sm3 P M ks

/-- Modelled from the spec: `cosign_sm2_encrypt` (header lines 232-237; §4.6
encrypt with the §7 retry bound of 8).  Output is the `C1 ‖ C3 ‖ C2` wire
form (§6); `ks` is the stream of RNG draws, at most 8 consumed. -/
def sm2Encrypt (G : Pt) (ser : Pt → List ℕ) (kdf : List ℕ → ℕ → List ℕ)
    (sm3 : List ℕ → List ℕ) (P : Pt) (M : List ℕ) (ks : List (ZMod n)) : CoResult (List ℕ) :=
  encLoop G ser kdf sm3 P M (ks.take 8)

/-- Modelled from the spec: `cosign_sm2_decrypt` (header lines 249-254; §4.6
decrypt).  Parses `C1(64) ‖ C3(32) ‖ C2(rest)`, validates `C1` on curve via
`deser`, and fails with *CryptoFailure* on `d·C1 = O`, all-zero KDF output,
or tag mismatch. -/
def sm2Decrypt (deser : List ℕ → Option Pt) (ser : Pt → List ℕ)
    (kdf : List ℕ → ℕ → List ℕ) (sm3 : List ℕ → List ℕ)
    (d : ZMod n) (C : List ℕ) : CoResult (List ℕ) :=
  if C.length < 96 then .err .invalidInput else
  let c1b := C.take 64
  let c3 := (C.drop 64).take 32
  let c2 := C.drop 96
  match deser c1b with
  | none => .err .invalidInput
  | some c1pt =>
    let S := smulZ d c1pt
    if S = 0 then .err .cryptoFailure
    else
      let zb := ser S
      let t := kdf zb c2.length
      if t.all (· = 0) then .err .cryptoFailure
      else
        let M := c2.zipWith Nat.xor t
        if sm3 (zb.take 32 ++ M ++ zb.drop 32) = c3 then .ok M
        else .err .cryptoFailure

/-- Modelled from the spec: `cosign_generate_d1` (header lines 40-47; spec
§4.7).  The RNG draw is passed in (spec §4.8 guarantees it lies in
`[1, n−1]`); the output is its 32-octet big-endian encoding. -/
def generateD1 (d1 : ZMod n) : List ℕ :=
  toBytesBE 32 d1.val

/-- Modelled from the spec: `cosign_calculate_p1` (header lines 58-62; spec
§4.7): `P1 = d1·G` as 64 octets. -/
def calculateP1 (G : Pt) (ser : Pt → List ℕ) (d1 : ZMod n) : List ℕ :=
  ser (smulZ d1 G)

/-- Modelled from the spec: `cosign_sign_prepare` (header lines 73-77; spec
§4.7): sample `k1`, return its 32-octet encoding and `Q1 = k1·G` as 64
octets. -/
def signPrepareOut (G : Pt) (ser : Pt → List ℕ) (k1 : ZMod n) : List ℕ × List ℕ :=
  (toBytesBE 32 k1.val, ser (smulZ k1 G))

/-- Modelled from the spec: `cosign_hash_message` (header lines 90-96; spec
§4.7): `e = SM3(Z_A ‖ M)` as 32 octets, abstracted by `H`. -/
def hashMessageOut (H : Pt → List ℕ → ZMod n) (P : Pt) (M : List ℕ) : List ℕ :=
  toBytesBE 32 (H P M).val

/-- Modelled from the spec: `cosign_complete_signature` (header lines
117-131; spec §4.7): `s = (d1·k1·s2 + d1·s3 − r) mod n`, rejected when
`s = 0` or `s = n − r` (as residues, `s = −r`), else `R = r`, `S = s` as
32-octet big-endian values. -/
def completeSignature (k1 d1 r s2 s3 : ZMod n) : CoResult (List ℕ × List ℕ) :=
  let s := d1 * k1 * s2 + d1 * s3 - r
  if s = 0 ∨ s = -r then .err .cryptoFailure
  else .ok (toBytesBE 32 r.val, toBytesBE 32 s.val)

/-- Modelled from the spec: `cosign_decrypt_prepare` (header lines 144-150;
spec §4.7): parse `C1` as a 64-octet on-curve point via `deser`, compute
`T1 = d1⁻¹ · C1` (inverse mod `n`; inverse of 0 is a crypto error, §4.1),
return it as 64 octets. -/
def decryptPrepare (deser : List ℕ → Option Pt) (ser : Pt → List ℕ)
    (d1 : ZMod n) (c1 : List ℕ) : CoResult (List ℕ) :=
  match deser c1 with
  | none => .err .invalidInput
  | some Q =>
    if d1 = 0 then .err .cryptoFailure
    else .ok (ser (smulZ (zinv d1) Q))

end Core

/-- Return kind of a C ABI entry point, from the header declarations. -/
inductive RetKind where
  | statusInt
  | ptr
  | voidRet
deriving DecidableEq, Repr

/-- One exported entry point: its name and return kind, transcribed from
`sm2_co_sign_ffi.h`. -/
structure EntryPoint where
  name : String
  ret : RetKind
deriving DecidableEq, Repr

/-- The full exported surface of `sm2_co_sign_ffi.h` (lines 32-278), in
declaration order. -/
def ffiSurface : List EntryPoint :=
  [⟨"cosign_context_new", .ptr⟩,
   ⟨"cosign_context_free", .voidRet⟩,
   ⟨"cosign_generate_d1", .statusInt⟩,
   ⟨"cosign_calculate_p1", .statusInt⟩,
   ⟨"cosign_sign_prepare", .statusInt⟩,
   ⟨"cosign_hash_message", .statusInt⟩,
   ⟨"cosign_complete_signature", .statusInt⟩,
   ⟨"cosign_decrypt_prepare", .statusInt⟩,
   ⟨"cosign_complete_decryption", .statusInt⟩,
   ⟨"cosign_sm3_hash", .statusInt⟩,
   ⟨"cosign_sm2_sign", .statusInt⟩,
   ⟨"cosign_sm2_verify", .statusInt⟩,
   ⟨"cosign_sm2_encrypt", .statusInt⟩,
   ⟨"cosign_sm2_decrypt", .statusInt⟩,
   ⟨"cosign_base64_encode", .statusInt⟩,
   ⟨"cosign_base64_decode", .statusInt⟩]

/-- Modelled from the spec (§5, §9): the opaque protocol context holds no
secret state between calls — only the frozen curve parameters and an RNG
handle, both process-wide constants — so the model carries no fields. -/
structure CtxModel where
deriving DecidableEq, Repr

/-- Modelled from the spec (§5): a context-using operation is a pure function
of the context and its arguments; running it returns the untouched context
with the result, so any number of independent operations may reuse it. -/
def runWithCtx {α β : Type} (op : CtxModel → α → β) (ctx : CtxModel) (a : α) :
    CtxModel × β :=
  (ctx, op ctx a)

/-- The RFC 4648 standard alphabet (spec §6: `+/` alphabet), as ASCII codes. -/
def b64Alphabet : List ℕ :=
  (List.range 26).map (· + 65) ++ (List.range 26).map (· + 97) ++
    (List.range 10).map (· + 48) ++ [43, 47]

/-- The ASCII code of the base64 character for a 6-bit value. -/
def b64Char (i : ℕ) : ℕ :=
  b64Alphabet.getD i 0

/-- Encode one final chunk of 1 to 3 octets into 4 base64 characters, with
`=` (ASCII 61) padding (spec §6). -/
def b64EncodeChunk : List ℕ → List ℕ
  | [a, b, c] =>
    [b64Char (a / 4), b64Char (a % 4 * 16 + b / 16), b64Char (b % 16 * 4 + c / 64),
     b64Char (c % 64)]
  | [a, b] =>
    [b64Char (a / 4), b64Char (a % 4 * 16 + b / 16), b64Char (b % 16 * 4), 61]
  | [a] =>
    [b64Char (a / 4), b64Char (a % 4 * 16), 61, 61]
  | _ => []

/-- Modelled from the spec (§6): RFC 4648 base64 encoding, no line
wrapping. -/
def b64Encode : List ℕ → List ℕ
  | [] => []
  | a :: b :: c :: rest => b64EncodeChunk [a, b, c] ++ b64Encode rest
  | [a] => b64EncodeChunk [a]
  | [a, b] => b64EncodeChunk [a, b]

/-- The 6-bit value of a base64 alphabet character, `none` off-alphabet. -/
def b64DecVal (c : ℕ) : Option ℕ :=
  if 65 ≤ c ∧ c ≤ 90 then some (c - 65)
  else if 97 ≤ c ∧ c ≤ 122 then some (c - 97 + 26)
  else if 48 ≤ c ∧ c ≤ 57 then some (c - 48 + 52)
  else if c = 43 then some 62
  else if c = 47 then some 63
  else none

/-- Modelled from the spec (§6, §7): RFC 4648 base64 decoding; framing
errors (length not a multiple of 4, off-alphabet character, interior
padding) yield `none`, surfaced as *EncodingFailure*. -/
def b64Decode : List ℕ → Option (List ℕ)
  | [] => some []
  | a :: b :: c :: d :: rest =>
    match b64DecVal a, b64DecVal b with
    | some va, some vb =>
      if c = 61 ∧ d = 61 ∧ rest = [] then some [va * 4 + vb / 16]
      else
        match b64DecVal c with
        | some vc =>
          if d = 61 ∧ rest = [] then some [va * 4 + vb / 16, vb % 16 * 16 + vc / 4]
          else
            match b64DecVal d with
            | some vd =>
              (b64Decode rest).map
                (fun tail => [va * 4 + vb / 16, vb % 16 * 16 + vc / 4, vc % 4 * 64 + vd] ++ tail)
            | none => none
        | none => none
    | _, _ => none
  | _ => none

/-- Modelled from the spec (§6, §9: the shim writes into a caller-provided
bounded buffer): writing `out` at the start of buffer `buf` touches exactly
the first `out.length` cells and leaves every later cell unchanged — in
particular no terminating NUL is appended. -/
def writeBuf (buf out : List ℕ) : List ℕ :=
  out ++ buf.drop out.length

/-- Modelled from the spec: `cosign_base64_encode` (header lines 264-267).
Returns the status, the value stored in `*out_len`, and the buffer contents
after the call. -/
def base64EncodeFFI (data buf : List ℕ) : Int × ℕ × List ℕ :=
  let out := b64Encode data
  (COSIGN_OK, out.length, writeBuf buf out)

/-- Modelled from the spec: `cosign_base64_decode` (header lines 276-278).
Returns the status, the value stored in `*out_len`, and the data buffer
contents after the call; framing errors leave the buffer untouched. -/
def base64DecodeFFI (str buf : List ℕ) : Int × ℕ × List ℕ :=
  match b64Decode str with
  | some out => (COSIGN_OK, out.length, writeBuf buf out)
  | none => (COSIGN_ERR_ENCODING, 0, buf)

/-- Concrete 64-octet point codec for a toy instantiation of the abstract
curve group by `ZMod 5`: used to evaluate the generic development on
concrete inputs. -/
def serW (Q : ZMod 5) : List ℕ :=
  List.replicate 63 0 ++ [Q.val]

/-- Concrete parser inverting `serW`, rejecting every other 64-octet string
(the model of on-curve validation for the toy instantiation). -/
def deserW (l : List ℕ) : Option (ZMod 5) :=
  if l = serW 0 then some 0
  else if l = serW 1 then some 1
  else if l = serW 2 then some 2
  else if l = serW 3 then some 3
  else if l = serW 4 then some 4
  else none

/-- Concrete 32-octet hash for the toy instantiation. -/
def sm3W (x : List ℕ) : List ℕ :=
  List.replicate 31 0 ++ [x.sum % 256]

/-- Concrete KDF for the toy instantiation: `l` octets, each 7. -/
def kdfW (_z : List ℕ) (l : ℕ) : List ℕ :=
  List.replicate l 7

/-- Concrete message-hash scalar for the toy instantiation. -/
def hashW (P : ZMod 5) (M : List ℕ) : ZMod 5 :=
  P * 2 + (M.length : ZMod 5)

/-- Concrete x-coordinate map for the toy instantiation. -/
def xOfW : ZMod 5 → ZMod 5 := id

/-- A big-endian encoding has exactly the requested width. -/
theorem toBytesBE_length (w x : ℕ) : (toBytesBE w x).length = w := by
  induction w generalizing x with
  | zero => rfl
  | succ w ih => simp [toBytesBE, ih]

theorem foldl_bytes_shift (l : List ℕ) :
    ∀ acc : ℕ, l.foldl (fun a b => 256 * a + b) acc =
      acc * 256 ^ l.length + l.foldl (fun a b => 256 * a + b) 0 := by
  induction l with
  | nil => intro acc; simp
  | cons d t ih =>
    intro acc
    simp only [List.foldl_cons, List.length_cons]
    rw [ih (256 * acc + d), ih (256 * 0 + d)]
    ring

/-- Decoding inverts big-endian encoding up to the width's modulus. -/
theorem fromBytesBE_toBytesBE (w x : ℕ) :
    fromBytesBE (toBytesBE w x) = x % 256 ^ w := by
  induction w generalizing x with
  | zero => simp [toBytesBE, fromBytesBE, Nat.mod_one]
  | succ w ih =>
    show fromBytesBE ((x / 256 ^ w % 256) :: toBytesBE w x) = x % 256 ^ (w + 1)
    unfold fromBytesBE
    rw [List.foldl_cons, foldl_bytes_shift, toBytesBE_length]
    have hx := ih x
    unfold fromBytesBE at hx
    rw [hx, Nat.mod_pow_succ]
    ring

/-- Decoding inverts big-endian encoding of an in-range value. -/
theorem fromBytesBE_toBytesBE_of_lt {w x : ℕ} (h : x < 256 ^ w) :
    fromBytesBE (toBytesBE w x) = x := by
  rw [fromBytesBE_toBytesBE, Nat.mod_eq_of_lt h]

/-- The Fermat inverse of zero is zero (for a modulus above 2). -/
theorem zinv_zero {n : ℕ} (hn2 : 2 < n) : zinv (0 : ZMod n) = 0 := by
  obtain ⟨m, hm⟩ : ∃ m, n - 2 = m + 1 := ⟨n - 3, by omega⟩
  unfold zinv
  rw [hm, pow_succ, mul_zero]

/-- The Fermat inverse is a left inverse of a nonzero residue mod a prime. -/
theorem zinv_mul_cancel {n : ℕ} [Fact (Nat.Prime n)] {a : ZMod n} (ha : a ≠ 0) :
    zinv a * a = 1 := by
  unfold zinv
  rw [← pow_succ]
  have h2 : 2 ≤ n := (Fact.out : n.Prime).two_le
  have hn1 : n - 2 + 1 = n - 1 := by omega
  rw [hn1]
  exact ZMod.pow_card_sub_one_eq_one ha

section SmulLemmas

variable {n : ℕ} {Pt : Type} [AddCommGroup Pt]

/-- In an `n`-torsion orbit, natural scalars act through their residue. -/
theorem nsmul_mod_eq {G : Pt} (hG : n • G = 0) (m : ℕ) :
    (m % n) • G = m • G := by
  conv_rhs => rw [← Nat.div_add_mod m n]
  rw [add_nsmul, mul_nsmul, hG, smul_zero, zero_add]

/-- `smulZ` turns scalar addition into point addition on the base point. -/
theorem smulZ_add [NeZero n] {G : Pt} (hG : n • G = 0) (a b : ZMod n) :
    smulZ (a + b) G = smulZ a G + smulZ b G := by
  unfold smulZ
  rw [ZMod.val_add, nsmul_mod_eq hG, add_nsmul]

/-- `smulZ` turns scalar multiplication into iterated `smulZ` on the base
point. -/
theorem smulZ_mul {G : Pt} (hG : n • G = 0) (a b : ZMod n) :
    smulZ (a * b) G = smulZ b (smulZ a G) := by
  unfold smulZ
  rw [ZMod.val_mul, nsmul_mod_eq hG, mul_nsmul]

/-- The `smulZ` action on the base point commutes. -/
theorem smulZ_comm {G : Pt} (hG : n • G = 0) (a b : ZMod n) :
    smulZ a (smulZ b G) = smulZ b (smulZ a G) := by
  rw [← smulZ_mul hG, mul_comm, smulZ_mul hG]

/-- Every `smulZ` multiple of the base point is `n`-torsion. -/
theorem smulZ_torsion {G : Pt} (hG : n • G = 0) (a : ZMod n) :
    n • smulZ a G = 0 := by
  unfold smulZ
  rw [← mul_nsmul, Nat.mul_comm, mul_nsmul, hG, smul_zero]

/-- `smulZ 1` is the identity. -/
theorem smulZ_one (h1 : 1 < n) (Q : Pt) : smulZ (1 : ZMod n) Q = Q := by
  haveI : Fact (1 < n) := ⟨h1⟩
  unfold smulZ
  rw [ZMod.val_one, one_nsmul]

end SmulLemmas

/-- Masking twice with the same keystream restores the plaintext. -/
theorem zipWith_xor_cancel :
    ∀ (m t : List ℕ), m.length ≤ t.length →
      (m.zipWith Nat.xor t).zipWith Nat.xor t = m := by
  intro m
  induction m with
  | nil => intro t _; simp
  | cons a m ih =>
    intro t ht
    cases t with
    | nil => simp at ht
    | cons b t =>
      simp only [List.zipWith_cons_cons, List.cons.injEq]
      refine ⟨?_, ih t (by simpa using ht)⟩
      show a ^^^ b ^^^ b = a
      rw [Nat.xor_assoc, Nat.xor_self, Nat.xor_zero]

/-- The bounded sign retry loop returns the first non-degenerate attempt and
fails only when every supplied draw is degenerate. -/
theorem signLoop_eq_findSome {n : ℕ} {Pt : Type} [AddCommGroup Pt] [DecidableEq Pt]
    (G : Pt) (xOf : Pt → ZMod n) (H : Pt → List ℕ → ZMod n)
    (d : ZMod n) (M : List ℕ) (ks : List (ZMod n)) :
    signLoop G xOf H d M ks =
      match ks.findSome? (signAttempt G xOf H d M) with
      | some rs => .ok rs
      | none => .err .cryptoFailure := by
  induction ks with
  | nil => rfl
  | cons k ks ih =>
    rw [signLoop, List.findSome?_cons]
    cases signAttempt G xOf H d M k with
    | some rs => rfl
    | none => exact ih

/-- The bounded encrypt retry loop returns the first non-degenerate attempt
and fails only when every supplied draw is degenerate. -/
theorem encLoop_eq_findSome {n : ℕ} {Pt : Type} [AddCommGroup Pt] [DecidableEq Pt]
    (G : Pt) (ser : Pt → List ℕ) (kdf : List ℕ → ℕ → List ℕ)
    (sm3 : List ℕ → List ℕ) (P : Pt) (M : List ℕ) (ks : List (ZMod n)) :
    encLoop G ser kdf sm3 P M ks =
      match ks.findSome? (encAttempt G ser kdf sm3 P M) with
      | some c => .ok c
      | none => .err .cryptoFailure := by
  induction ks with
  | nil => rfl
  | cons k ks ih =>
    rw [encLoop, List.findSome?_cons]
    cases encAttempt G ser kdf sm3 P M k with
    | some c => rfl
    | none => exact ih

/-- Unfolding of a successful signing attempt into its constituent facts. -/
theorem signAttempt_ok {n : ℕ} {Pt : Type} [AddCommGroup Pt] [DecidableEq Pt]
    {G : Pt} {xOf : Pt → ZMod n} {H : Pt → List ℕ → ZMod n}
    {d : ZMod n} {M : List ℕ} {k : ZMod n} {rs : ZMod n × ZMod n}
    (h : signAttempt G xOf H d M k = some rs) :
    rs.1 = H (smulZ d G) M + xOf (smulZ k G) ∧
    rs.1 ≠ 0 ∧ rs.1 + k ≠ 0 ∧
    rs.2 = zinv (1 + d) * (k - rs.1 * d) ∧ rs.2 ≠ 0 := by
  unfold signAttempt at h
  simp only at h
  split at h
  · exact absurd h (by simp)
  · rename_i hdeg
    push_neg at hdeg
    split at h
    · exact absurd h (by simp)
    · rename_i hs
      cases h
      exact ⟨rfl, hdeg.1, hdeg.2, rfl, hs⟩

/-- C1: for every key pair `(d, P = d·G)` with `d ∈ [1, n−1]` and every
message `M`, verifying with `cosign_sm2_verify` a signature produced by
`cosign_sm2_sign` returns success (0). -/
theorem sign_verify_roundtrip
    {n : ℕ} [Fact (Nat.Prime n)] {Pt : Type} [AddCommGroup Pt] [DecidableEq Pt]
    (G : Pt) (xOf : Pt → ZMod n) (H : Pt → List ℕ → ZMod n)
    (deser : List ℕ → Option Pt)
    (d : ZMod n) (M : List ℕ) (ks : List (ZMod n)) (pk sigB : List ℕ)
    (hn : n < 256 ^ 32)
    (hn2 : 2 < n)
    (hG : n • G = 0)
    (_hd : d ≠ 0)
    (hpk : deser pk = some (smulZ d G))
    (hsig : sm2SignBytes G xOf H d M ks = .ok sigB) :
    sm2Verify G xOf H deser pk M sigB = COSIGN_OK := by
  haveI : NeZero n := ⟨(Fact.out : n.Prime).ne_zero⟩
  unfold sm2SignBytes at hsig
  cases hsign : sign G xOf H d M ks with
  | err e => rw [hsign] at hsig; exact absurd hsig (by simp)
  | ok rs =>
  rw [hsign] at hsig
  simp only [CoResult.ok.injEq] at hsig
  subst hsig
  unfold sign at hsign
  rw [signLoop_eq_findSome] at hsign
  revert hsign
  cases hfs : (ks.take 8).findSome? (signAttempt G xOf H d M) with
  | none => intro hsign; exact absurd hsign (by simp)
  | some rs0 =>
  intro hsign
  simp only [CoResult.ok.injEq] at hsign
  subst hsign
  obtain ⟨k, _, hatt⟩ := List.exists_of_findSome?_eq_some hfs
  obtain ⟨hr_def, hr0, hrk, hs_def, hs0⟩ := signAttempt_ok hatt
  obtain ⟨r0, s0⟩ := rs0
  simp only at hr_def hr0 hrk hs_def hs0
  -- 1 + d is invertible: otherwise s would be zero
  have hd1 : (1 : ZMod n) + d ≠ 0 := by
    intro hc
    rw [hc, zinv_zero hn2, zero_mul] at hs_def
    exact hs0 hs_def
  have hs_mul : s0 * (1 + d) = k - r0 * d := by
    rw [hs_def, mul_comm (zinv (1 + d)) _, mul_assoc, zinv_mul_cancel hd1, mul_one]
  -- value-level facts for the wire form
  have hrval : r0.val < n := ZMod.val_lt r0
  have hsval : s0.val < n := ZMod.val_lt s0
  have hrv0 : r0.val ≠ 0 := (ZMod.val_ne_zero r0).mpr hr0
  have hsv0 : s0.val ≠ 0 := (ZMod.val_ne_zero s0).mpr hs0
  have hrn : fromBytesBE (toBytesBE 32 r0.val) = r0.val :=
    fromBytesBE_toBytesBE_of_lt (lt_trans hrval hn)
  have hsn : fromBytesBE (toBytesBE 32 s0.val) = s0.val :=
    fromBytesBE_toBytesBE_of_lt (lt_trans hsval hn)
  have hlenr : (toBytesBE 32 r0.val).length = 32 := toBytesBE_length 32 r0.val
  have hlens : (toBytesBE 32 s0.val).length = 32 := toBytesBE_length 32 s0.val
  -- unfold the verifier on the wire blob
  unfold sigBytesOf sm2Verify
  simp only [List.length_append, hlenr, hlens, List.take_left' hlenr,
    List.drop_left' hlenr, hrn, hsn]
  rw [if_neg (by simp)]
  rw [if_neg ?hrange]
  case hrange =>
    push_neg
    exact ⟨hrv0, hrval, hsv0, hsval⟩
  rw [hpk]
  simp only [ZMod.natCast_rightInverse r0, ZMod.natCast_rightInverse s0]
  -- the verifier's t = r + s is nonzero
  have ht : r0 + s0 ≠ 0 := by
    intro hc
    exact hrk (by linear_combination (1 + d) * hc - hs_mul)
  rw [if_neg ht]
  -- the recomputed point equals k·G
  have hk : s0 + d * (r0 + s0) = k := by linear_combination hs_mul
  have hpt : smulZ s0 G + smulZ (r0 + s0) (smulZ d G) = smulZ k G := by
    rw [← smulZ_mul hG d (r0 + s0), ← smulZ_add hG, hk]
  rw [hpt, if_pos hr_def.symm]

/-- C1 witness: the round trip evaluated on the toy instantiation. -/
theorem sign_verify_roundtrip_witness :
    sm2Verify (1 : ZMod 5) xOfW hashW deserW (serW 1) [9]
      ((sm2SignBytes (1 : ZMod 5) xOfW hashW (1 : ZMod 5) [9] [3]).getOr []) =
      COSIGN_OK := by
  have hG : (5 : ℕ) • (1 : ZMod 5) = 0 := by decide
  have hd : (1 : ZMod 5) ≠ 0 := by decide
  have hpk : deserW (serW 1) = some (smulZ (1 : ZMod 5) (1 : ZMod 5)) := by decide
  have hsig : sm2SignBytes (1 : ZMod 5) xOfW hashW (1 : ZMod 5) [9] [3] =
      .ok ((sm2SignBytes (1 : ZMod 5) xOfW hashW (1 : ZMod 5) [9] [3]).getOr []) := by
    decide
  haveI : Fact (Nat.Prime 5) := ⟨by norm_num⟩
  exact sign_verify_roundtrip (1 : ZMod 5) xOfW hashW deserW 1 [9] [3] (serW 1) _
    (by norm_num) (by norm_num) hG hd hpk hsig

/-- Unfolding of a successful encryption attempt into its constituent
facts. -/
theorem encAttempt_ok {n : ℕ} {Pt : Type} [AddCommGroup Pt] [DecidableEq Pt]
    {G : Pt} {ser : Pt → List ℕ} {kdf : List ℕ → ℕ → List ℕ}
    {sm3 : List ℕ → List ℕ} {P : Pt} {M : List ℕ} {k : ZMod n} {c : List ℕ}
    (h : encAttempt G ser kdf sm3 P M k = some c) :
    smulZ k P ≠ 0 ∧
    ¬((kdf (ser (smulZ k P)) M.length).all (· = 0) = true) ∧
    c = ser (smulZ k G) ++
        sm3 ((ser (smulZ k P)).take 32 ++ M ++ (ser (smulZ k P)).drop 32) ++
        M.zipWith Nat.xor (kdf (ser (smulZ k P)) M.length) := by
  unfold encAttempt at h
  simp only at h
  split at h
  · exact absurd h (by simp)
  · rename_i hS
    split at h
    · exact absurd h (by simp)
    · rename_i ht
      cases h
      exact ⟨hS, ht, rfl⟩

/-- Splitting the `C1(64) ‖ C3(32) ‖ C2` ciphertext frame recovers its
components. -/
theorem frame_split (A B c2 : List ℕ) (hA : A.length = 64) (hB : B.length = 32) :
    (A ++ B ++ c2).take 64 = A ∧ ((A ++ B ++ c2).drop 64).take 32 = B ∧
    (A ++ B ++ c2).drop 96 = c2 := by
  refine ⟨?_, ?_, ?_⟩
  · rw [List.append_assoc, List.take_left' hA]
  · rw [List.append_assoc, List.drop_left' hA, List.take_left' hB]
  · have h96 : (A ++ B).length = 96 := by rw [List.length_append, hA, hB]
    rw [List.drop_left' h96]

/-- C2: for every private key `d ∈ [1, n−1]` with public key `P = d·G` and
every message `M`, decrypting with `cosign_sm2_decrypt` a ciphertext
produced by `cosign_sm2_encrypt` returns exactly `M` (same length, same
octets). -/
theorem encrypt_decrypt_roundtrip
    {n : ℕ} {Pt : Type} [AddCommGroup Pt] [DecidableEq Pt]
    (G : Pt) (ser : Pt → List ℕ) (deser : List ℕ → Option Pt)
    (kdf : List ℕ → ℕ → List ℕ) (sm3 : List ℕ → List ℕ)
    (d : ZMod n) (M : List ℕ) (ks : List (ZMod n)) (C : List ℕ)
    (hG : n • G = 0)
    (_hd : d ≠ 0)
    (hserlen : ∀ Q : Pt, (ser Q).length = 64)
    (hsm3len : ∀ x, (sm3 x).length = 32)
    (hkdflen : ∀ z l, (kdf z l).length = l)
    (hcodec : ∀ Q : Pt, deser (ser Q) = some Q)
    (henc : sm2Encrypt G ser kdf sm3 (smulZ d G) M ks = .ok C) :
    sm2Decrypt deser ser kdf sm3 d C = .ok M := by
  unfold sm2Encrypt at henc
  rw [encLoop_eq_findSome] at henc
  revert henc
  cases hfs : (ks.take 8).findSome? (encAttempt G ser kdf sm3 (smulZ d G) M) with
  | none => intro henc; exact absurd henc (by simp)
  | some c0 =>
  intro henc
  simp only [CoResult.ok.injEq] at henc
  subst henc
  obtain ⟨k, _, hatt⟩ := List.exists_of_findSome?_eq_some hfs
  obtain ⟨hS, ht, hc⟩ := encAttempt_ok hatt
  subst hc
  -- decryption recovers the same shared point
  have hcomm : smulZ d (smulZ k G) = smulZ k (smulZ d G) := smulZ_comm hG d k
  -- length bookkeeping for the wire frame C1(64) ‖ C3(32) ‖ C2
  have hl1 : (ser (smulZ k G)).length = 64 := hserlen _
  have hl3 : (sm3 ((ser (smulZ k (smulZ d G))).take 32 ++ M ++
      (ser (smulZ k (smulZ d G))).drop 32)).length = 32 := hsm3len _
  have hlt : (kdf (ser (smulZ k (smulZ d G))) M.length).length = M.length :=
    hkdflen _ _
  have hl2 : (M.zipWith Nat.xor (kdf (ser (smulZ k (smulZ d G))) M.length)).length
      = M.length := by
    rw [List.length_zipWith, hlt, Nat.min_self]
  have hl13 : ((ser (smulZ k G) ++
      sm3 ((ser (smulZ k (smulZ d G))).take 32 ++ M ++
        (ser (smulZ k (smulZ d G))).drop 32)).length) = 96 := by
    rw [List.length_append, hl1, hl3]
  obtain ⟨ht64, ht32, ht96⟩ := frame_split _ _ _ hl1 hl3
  unfold sm2Decrypt
  rw [if_neg ?hlen]
  case hlen =>
    simp only [List.length_append, hl1, hl3, hl2, not_lt]
    omega
  dsimp only
  rw [ht64, ht32, ht96, hcodec]
  simp only
  rw [hcomm, if_neg hS, hl2]
  rw [if_neg ht]
  rw [zipWith_xor_cancel M _ (le_of_eq hlt.symm)]
  rw [if_pos rfl]

/-- C2 witness: the encrypt/decrypt round trip evaluated on the toy
instantiation. -/
theorem encrypt_decrypt_roundtrip_witness :
    sm2Decrypt deserW serW kdfW sm3W (2 : ZMod 5)
      ((sm2Encrypt (1 : ZMod 5) serW kdfW sm3W (smulZ (2 : ZMod 5) 1)
        [104, 105] ([3] : List (ZMod 5))).getOr []) = .ok [104, 105] := by
  have hG : (5 : ℕ) • (1 : ZMod 5) = 0 := by decide
  have hd : (2 : ZMod 5) ≠ 0 := by decide
  have hserlen : ∀ Q : ZMod 5, (serW Q).length = 64 := by decide
  have hsm3len : ∀ x : List ℕ, (sm3W x).length = 32 := by
    intro x; simp [sm3W]
  have hkdflen : ∀ z l, (kdfW z l).length = l := by
    intro z l; simp [kdfW]
  have hcodec : ∀ Q : ZMod 5, deserW (serW Q) = some Q := by decide
  have henc : sm2Encrypt (1 : ZMod 5) serW kdfW sm3W (smulZ (2 : ZMod 5) 1)
      [104, 105] ([3] : List (ZMod 5)) =
      .ok ((sm2Encrypt (1 : ZMod 5) serW kdfW sm3W (smulZ (2 : ZMod 5) 1)
        [104, 105] ([3] : List (ZMod 5))).getOr []) := by decide
  exact encrypt_decrypt_roundtrip (1 : ZMod 5) serW deserW kdfW sm3W 2
    [104, 105] ([3] : List (ZMod 5)) _ hG hd hserlen hsm3len hkdflen hcodec henc

/-- C3: `cosign_decrypt_prepare(d1, C1)` parses `C1` as a 64-octet on-curve
point and returns `T1 = d1⁻¹ · C1` (inverse mod `n`) encoded as 64 octets;
scalar-multiplying `T1` back by `d1` recovers `C1`, and an unparseable `C1`
is rejected as invalid input. -/
theorem decrypt_prepare_inverse
    {n : ℕ} [Fact (Nat.Prime n)] {Pt : Type} [AddCommGroup Pt] [DecidableEq Pt]
    (deser : List ℕ → Option Pt) (ser : Pt → List ℕ)
    (d1 : ZMod n) (c1 : List ℕ) (Q : Pt)
    (hserlen : ∀ R : Pt, (ser R).length = 64)
    (hQtor : n • Q = 0)
    (hd : d1 ≠ 0)
    (hparse : deser c1 = some Q) :
    decryptPrepare deser ser d1 c1 = .ok (ser (smulZ (zinv d1) Q)) ∧
    (ser (smulZ (zinv d1) Q)).length = 64 ∧
    smulZ d1 (smulZ (zinv d1) Q) = Q ∧
    (∀ c, deser c = none → decryptPrepare deser ser d1 c = .err .invalidInput) := by
  have h1 : 1 < n := (Fact.out : n.Prime).one_lt
  refine ⟨?_, hserlen _, ?_, ?_⟩
  · unfold decryptPrepare
    rw [hparse]
    simp only
    rw [if_neg hd]
  · rw [← smulZ_mul hQtor (zinv d1) d1, zinv_mul_cancel hd, smulZ_one h1]
  · intro c hc
    unfold decryptPrepare
    rw [hc]

/-- C3 witness: `decrypt_prepare` evaluated on the toy instantiation. -/
theorem decrypt_prepare_inverse_witness :
    decryptPrepare deserW serW (2 : ZMod 5) (serW 3) =
      .ok (serW (smulZ (zinv (2 : ZMod 5)) 3)) := by
  have hserlen : ∀ R : ZMod 5, (serW R).length = 64 := by decide
  have hQT : (5 : ℕ) • (3 : ZMod 5) = 0 := by decide
  have hd : (2 : ZMod 5) ≠ 0 := by decide
  have hparse : deserW (serW 3) = some (3 : ZMod 5) := by decide
  haveI : Fact (Nat.Prime 5) := ⟨by norm_num⟩
  exact (decrypt_prepare_inverse deserW serW 2 (serW 3) 3 hserlen hQT hd hparse).1

/-- C5: `cosign_complete_signature(k1, d1, r, s2, s3)` computes
`s = (d1·k1·s2 + d1·s3 − r) mod n`, returns a crypto error exactly when
`s = 0` or `s = n − r` (as residues, `s = −r`), and otherwise outputs
`R = r` and `S = s` as 32-octet big-endian values. -/
theorem complete_signature_spec
    {n : ℕ} [NeZero n] (k1 d1 r s2 s3 : ZMod n) (hn : n < 256 ^ 32) :
    (completeSignature k1 d1 r s2 s3 = .err .cryptoFailure ↔
      d1 * k1 * s2 + d1 * s3 - r = 0 ∨ d1 * k1 * s2 + d1 * s3 - r = -r) ∧
    (∀ R S : List ℕ, completeSignature k1 d1 r s2 s3 = .ok (R, S) →
      R.length = 32 ∧ S.length = 32 ∧
      fromBytesBE R = r.val ∧
      fromBytesBE S = (d1 * k1 * s2 + d1 * s3 - r).val) := by
  unfold completeSignature
  simp only
  split
  · rename_i hdeg
    refine ⟨⟨fun _ => hdeg, fun _ => rfl⟩, ?_⟩
    intro R S hRS
    exact absurd hRS (by simp)
  · rename_i hdeg
    refine ⟨⟨fun hc => absurd hc (by simp), fun hc => absurd hc hdeg⟩, ?_⟩
    intro R S hRS
    simp only [CoResult.ok.injEq, Prod.mk.injEq] at hRS
    obtain ⟨hR, hS⟩ := hRS
    subst hR
    subst hS
    refine ⟨toBytesBE_length 32 _, toBytesBE_length 32 _, ?_, ?_⟩
    · exact fromBytesBE_toBytesBE_of_lt (lt_trans (ZMod.val_lt r) hn)
    · exact fromBytesBE_toBytesBE_of_lt (lt_trans (ZMod.val_lt _) hn)

/-- C5 witness: `complete_signature` evaluated at a non-degenerate input. -/
theorem complete_signature_spec_witness :
    fromBytesBE ((completeSignature (1 : ZMod 5) 1 1 1 1).getOr ([], [])).2 =
      ((1 : ZMod 5) * 1 * 1 + 1 * 1 - 1).val := by
  haveI : NeZero (5 : ℕ) := ⟨by norm_num⟩
  exact ((complete_signature_spec (1 : ZMod 5) 1 1 1 1 (by norm_num)).2
    ((completeSignature (1 : ZMod 5) 1 1 1 1).getOr ([], [])).1
    ((completeSignature (1 : ZMod 5) 1 1 1 1).getOr ([], [])).2
    (by decide)).2.2.2

/-- C6: `cosign_sm2_verify` rejects, with the InvalidInput status (−2) and
never success, every signature whose `r` or `s` component lies outside
`[1, n−1]` (in particular `r = 0` and `s = n`), for every public key and
message. -/
theorem verify_rejects_out_of_range
    {n : ℕ} {Pt : Type} [AddCommGroup Pt] [DecidableEq Pt]
    (G : Pt) (xOf : Pt → ZMod n) (H : Pt → List ℕ → ZMod n)
    (deser : List ℕ → Option Pt) (pk M sig : List ℕ)
    (hout : fromBytesBE (sig.take 32) = 0 ∨ n ≤ fromBytesBE (sig.take 32) ∨
            fromBytesBE (sig.drop 32) = 0 ∨ n ≤ fromBytesBE (sig.drop 32)) :
    sm2Verify G xOf H deser pk M sig = COSIGN_ERR_INVALID_PARAM ∧
    sm2Verify G xOf H deser pk M sig ≠ COSIGN_OK := by
  have hres : sm2Verify G xOf H deser pk M sig = COSIGN_ERR_INVALID_PARAM := by
    unfold sm2Verify
    by_cases hl : sig.length = 64
    · rw [if_neg (by simp [hl])]
      simp only
      rw [if_pos hout]
    · rw [if_pos hl]
  exact ⟨hres, by rw [hres]; decide⟩

/-- C6 witness: the all-zero signature (`r = 0`) is rejected as invalid
input on the toy instantiation. -/
theorem verify_rejects_out_of_range_witness :
    sm2Verify (1 : ZMod 5) xOfW hashW deserW (serW 1) [9] (List.replicate 64 0) =
      COSIGN_ERR_INVALID_PARAM := by
  exact (verify_rejects_out_of_range (1 : ZMod 5) xOfW hashW deserW (serW 1) [9]
    (List.replicate 64 0) (by decide)).1

/-- C7: signing and encryption consume at most 8 RNG draws (so they
terminate for every input, being total functions of the draw prefix),
return *CryptoFailure* exactly when all 8 attempts are degenerate, and
return success with the first non-degenerate attempt. -/
theorem retry_bound_eight
    {n : ℕ} {Pt : Type} [AddCommGroup Pt] [DecidableEq Pt]
    (G : Pt) (xOf : Pt → ZMod n) (H : Pt → List ℕ → ZMod n)
    (ser : Pt → List ℕ) (kdf : List ℕ → ℕ → List ℕ) (sm3 : List ℕ → List ℕ)
    (P : Pt) (d : ZMod n) (M : List ℕ) (ks : List (ZMod n)) :
    (sm2SignBytes G xOf H d M ks = .err .cryptoFailure ↔
      ∀ k ∈ ks.take 8, signAttempt G xOf H d M k = none) ∧
    (∀ rs, (ks.take 8).findSome? (signAttempt G xOf H d M) = some rs →
      sm2SignBytes G xOf H d M ks = .ok (sigBytesOf rs)) ∧
    (sm2Encrypt G ser kdf sm3 P M ks = .err .cryptoFailure ↔
      ∀ k ∈ ks.take 8, encAttempt G ser kdf sm3 P M k = none) ∧
    (∀ c, (ks.take 8).findSome? (encAttempt G ser kdf sm3 P M) = some c →
      sm2Encrypt G ser kdf sm3 P M ks = .ok c) := by
  refine ⟨?_, ?_, ?_, ?_⟩
  · unfold sm2SignBytes sign
    rw [signLoop_eq_findSome]
    cases hfs : (ks.take 8).findSome? (signAttempt G xOf H d M) with
    | none =>
      simp only
      rw [List.findSome?_eq_none_iff] at hfs
      exact ⟨fun _ => hfs, fun _ => trivial⟩
    | some rs =>
      simp only
      refine ⟨fun hc => absurd hc (by simp), fun hall => ?_⟩
      obtain ⟨k, hk, hsome⟩ := List.exists_of_findSome?_eq_some hfs
      exact absurd (hall k hk) (by rw [hsome]; simp)
  · intro rs hfs
    unfold sm2SignBytes sign
    rw [signLoop_eq_findSome, hfs]
  · unfold sm2Encrypt
    rw [encLoop_eq_findSome]
    cases hfs : (ks.take 8).findSome? (encAttempt G ser kdf sm3 P M) with
    | none =>
      simp only
      rw [List.findSome?_eq_none_iff] at hfs
      exact ⟨fun _ => hfs, fun _ => trivial⟩
    | some c =>
      simp only
      refine ⟨fun hc => absurd hc (by simp), fun hall => ?_⟩
      obtain ⟨k, hk, hsome⟩ := List.exists_of_findSome?_eq_some hfs
      exact absurd (hall k hk) (by rw [hsome]; simp)
  · intro c hfs
    unfold sm2Encrypt
    rw [encLoop_eq_findSome, hfs]

/-- C7 witness: with every supplied draw degenerate (`r + k = n`), signing
fails with *CryptoFailure* on the toy instantiation. -/
theorem retry_bound_eight_witness :
    sm2SignBytes (1 : ZMod 5) xOfW hashW (1 : ZMod 5) [9] ([1] : List (ZMod 5)) =
      .err .cryptoFailure := by
  exact (retry_bound_eight (1 : ZMod 5) xOfW hashW serW kdfW sm3W (2 : ZMod 5)
    (1 : ZMod 5) [9] ([1] : List (ZMod 5))).1.mpr (by decide)

/-- C8: on success the FFI layer reports the fixed wire widths:
`generate_d1`, `sm3_hash` and `hash_message` produce 32 octets,
`calculate_p1`, `sign_prepare` (`q1`), `decrypt_prepare` and `sm2_sign`
produce 64 octets (`sign_prepare`'s `k1` is 32); no output exceeds the
documented minimum buffer size. -/
theorem ffi_output_lengths
    {n : ℕ} {Pt : Type} [AddCommGroup Pt] [DecidableEq Pt]
    (G : Pt) (ser : Pt → List ℕ) (deser : List ℕ → Option Pt)
    (xOf : Pt → ZMod n) (H : Pt → List ℕ → ZMod n) (sm3 : List ℕ → List ℕ)
    (d1 k1 : ZMod n) (P : Pt) (M data c1 : List ℕ)
    (hserlen : ∀ Q : Pt, (ser Q).length = 64)
    (hsm3len : ∀ x, (sm3 x).length = 32) :
    (generateD1 d1).length = 32 ∧
    (sm3 data).length = 32 ∧
    (hashMessageOut H P M).length = 32 ∧
    (calculateP1 G ser d1).length = 64 ∧
    (signPrepareOut G ser k1).1.length = 32 ∧
    (signPrepareOut G ser k1).2.length = 64 ∧
    (∀ t1, decryptPrepare deser ser d1 c1 = .ok t1 → t1.length = 64) ∧
    (∀ ks sb, sm2SignBytes G xOf H d1 M ks = .ok sb → sb.length = 64) := by
  refine ⟨toBytesBE_length 32 _, hsm3len data, toBytesBE_length 32 _,
    hserlen _, toBytesBE_length 32 _, hserlen _, ?_, ?_⟩
  · intro t1 h
    unfold decryptPrepare at h
    cases hdes : deser c1 with
    | none => rw [hdes] at h; exact absurd h (by simp)
    | some Q =>
      rw [hdes] at h
      simp only at h
      split at h
      · exact absurd h (by simp)
      · simp only [CoResult.ok.injEq] at h
        rw [← h]
        exact hserlen _
  · intro ks sb h
    unfold sm2SignBytes at h
    cases hsg : sign G xOf H d1 M ks with
    | err e => rw [hsg] at h; exact absurd h (by simp)
    | ok rs =>
      rw [hsg] at h
      simp only [CoResult.ok.injEq] at h
      rw [← h]
      unfold sigBytesOf
      rw [List.length_append, toBytesBE_length, toBytesBE_length]

/-- C8 witness: the reported widths evaluated on the toy instantiation. -/
theorem ffi_output_lengths_witness :
    (generateD1 (3 : ZMod 5)).length = 32 ∧
    (calculateP1 (1 : ZMod 5) serW (3 : ZMod 5)).length = 64 := by
  have hserlen : ∀ Q : ZMod 5, (serW Q).length = 64 := by decide
  have hsm3len : ∀ x : List ℕ, (sm3W x).length = 32 := by
    intro x; simp [sm3W]
  have h := ffi_output_lengths (1 : ZMod 5) serW deserW xOfW hashW sm3W
    (3 : ZMod 5) (3 : ZMod 5) (2 : ZMod 5) [9] [8] (serW 1) hserlen hsm3len
  exact ⟨h.1, h.2.2.2.1⟩

/-- C9: `cosign_context_new` is the only entry point returning a pointer
(NULL on failure) rather than an integer status; `cosign_context_free` is
the single status-less release entry; and a context is reusable across any
number of independent operations because operations neither read mutable
context state nor change it. -/
theorem context_api_surface :
    (∀ ep ∈ ffiSurface, ep.ret = RetKind.ptr ↔ ep.name = "cosign_context_new") ∧
    (⟨"cosign_context_free", RetKind.voidRet⟩ ∈ ffiSurface) ∧
    (∀ ep ∈ ffiSurface, ep.name ≠ "cosign_context_new" →
      ep.name ≠ "cosign_context_free" → ep.ret = RetKind.statusInt) ∧
    (∀ (α β : Type) (op : CtxModel → α → β) (c c2 : CtxModel) (a : α),
      runWithCtx op c a = (c, op c2 a)) := by
  refine ⟨by decide, by decide, by decide, ?_⟩
  intro α β op c c2 a
  cases c
  cases c2
  rfl

/-- C9 witness: the pointer-returning entry evaluated concretely. -/
theorem context_api_surface_witness :
    (⟨"cosign_context_new", RetKind.ptr⟩ : EntryPoint).ret = RetKind.ptr := by
  exact (context_api_surface.1 ⟨"cosign_context_new", RetKind.ptr⟩ (by decide)).mpr rfl

/-- Base64 encoding always emits 4 characters per started 3-octet block. -/
theorem b64Encode_length (l : List ℕ) :
    (b64Encode l).length = 4 * ((l.length + 2) / 3) := by
  induction l using b64Encode.induct with
  | case1 => rfl
  | case2 a b c rest ih =>
    show (b64EncodeChunk [a, b, c] ++ b64Encode rest).length = _
    rw [List.length_append, ih]
    have h4 : (b64EncodeChunk [a, b, c]).length = 4 := rfl
    rw [h4]
    simp only [List.length_cons]
    omega
  | case3 a => simp [b64Encode, b64EncodeChunk]
  | case4 a b => simp [b64Encode, b64EncodeChunk]

/-- C10: `cosign_base64_encode` writes exactly the encoded characters,
reports their count through `*out_len`, and leaves every buffer byte at
index `*out_len` and beyond unchanged (no terminating NUL); the same holds
for the data buffer of `cosign_base64_decode`. -/
theorem base64_buffer_discipline (data buf str buf2 : List ℕ) :
    (base64EncodeFFI data buf).1 = COSIGN_OK ∧
    (base64EncodeFFI data buf).2.1 = (b64Encode data).length ∧
    (b64Encode data).length = 4 * ((data.length + 2) / 3) ∧
    ((base64EncodeFFI data buf).2.2).take (b64Encode data).length = b64Encode data ∧
    ((base64EncodeFFI data buf).2.2).drop (b64Encode data).length =
      buf.drop (b64Encode data).length ∧
    (∀ out, b64Decode str = some out →
      (base64DecodeFFI str buf2).1 = COSIGN_OK ∧
      (base64DecodeFFI str buf2).2.1 = out.length ∧
      ((base64DecodeFFI str buf2).2.2).take out.length = out ∧
      ((base64DecodeFFI str buf2).2.2).drop out.length = buf2.drop out.length) := by
  refine ⟨rfl, rfl, b64Encode_length data, ?_, ?_, ?_⟩
  · show ((b64Encode data) ++ buf.drop (b64Encode data).length).take
        (b64Encode data).length = b64Encode data
    exact List.take_left _ _
  · show ((b64Encode data) ++ buf.drop (b64Encode data).length).drop
        (b64Encode data).length = buf.drop (b64Encode data).length
    exact List.drop_left _ _
  · intro out hdec
    unfold base64DecodeFFI
    rw [hdec]
    refine ⟨rfl, rfl, ?_, ?_⟩
    · show (out ++ buf2.drop out.length).take out.length = out
      exact List.take_left _ _
    · show (out ++ buf2.drop out.length).drop out.length = buf2.drop out.length
      exact List.drop_left _ _

/-- C10 witness: the decode-side buffer frame evaluated concretely. -/
theorem base64_buffer_discipline_witness :
    (base64DecodeFFI [97, 97, 97, 97] (List.replicate 10 3)).2.2.drop
      ((b64Decode [97, 97, 97, 97]).getD []).length =
      (List.replicate 10 3).drop ((b64Decode [97, 97, 97, 97]).getD []).length := by
  exact ((base64_buffer_discipline [104, 101] (List.replicate 10 3) [97, 97, 97, 97]
    (List.replicate 10 3)).2.2.2.2.2 ((b64Decode [97, 97, 97, 97]).getD [])
    (by decide)).2.2.2

end SM2
